import Mathlib

/-!
Verification of the HiLo guessing game (src/Python/hilo.py).

The Python class `HiLo` holds three integer fields `low`, `high`, `size`.
Python integers are unbounded, so they are modelled by `ℤ`.  Python's
floor division `//` is modelled by `Int.fdiv`.  Methods that raise
`ValueError` are modelled with an explicit error type: the three
constructor messages, plus the "already solved" and "not solved" errors.
The mutating methods `yes`/`no` are modelled as functions returning the
new state together with an optional error; when the error is raised the
returned state is the untouched receiver, exactly as in the source where
`raise` precedes any assignment.  The float-valued `progress` method is
modelled over the real numbers.
-/

/-- The state of a HiLo game: fields `low`, `high`, `size` of the Python class. -/
structure HiLo where
  low : ℤ
  high : ℤ
  size : ℤ
deriving DecidableEq

/-- The `ValueError`s raised by `hilo.py`, one constructor per distinct message. -/
inductive HiLoError where
  /-- Message "range cannot be empty". -/
  | rangeEmpty
  /-- Message "min cannot be negative". -/
  | minNegative
  /-- Message "max must be less than 1000000000". -/
  | maxTooLarge
  /-- Message "problem has been solved already". -/
  | alreadySolved
  /-- Message "problem not solved yet". -/
  | notSolved
deriving DecidableEq

/-- The spec's `InvalidRangeError` covers the three constructor errors. -/
def HiLoError.isInvalidRange : HiLoError → Bool
  | .rangeEmpty => true
  | .minNegative => true
  | .maxTooLarge => true
  | _ => false

/-- Models `HiLo.__init__`: validates the range, then stores `low`, `high`, `size`. -/
def HiLo.init (minimum maximum : ℤ) : Except HiLoError HiLo :=
  if minimum > maximum then .error .rangeEmpty
  else if minimum < 0 then .error .minNegative
  else if maximum ≥ 1000000000 then .error .maxTooLarge
  else .ok ⟨minimum, maximum, maximum - minimum + 1⟩

/-- Models `HiLo.upto`: classmethod building the range `1..max`. -/
def HiLo.upto (maximum : ℤ) : Except HiLoError HiLo := HiLo.init 1 maximum

/-- Models `HiLo._mid_point`: `(self.low + self.high) // 2` (Python floor division). -/
def HiLo.midPoint (s : HiLo) : ℤ := Int.fdiv (s.low + s.high) 2

/-- Models `HiLo.solved`: `self.low == self.high`. -/
def HiLo.solved (s : HiLo) : Bool := s.low == s.high

/-- Python `range(lo, stop)` as the list of integers `lo, lo+1, ..., stop-1`. -/
def intRange (lo stop : ℤ) : List ℤ := (List.range (stop - lo).toNat).map fun i : ℕ => lo + (i : ℤ)

/-- Models `HiLo.choices`: raises if solved, else returns `range(low, mid_point + 1)`. -/
def HiLo.choices (s : HiLo) : Except HiLoError (List ℤ) :=
  if s.solved then .error .alreadySolved
  else .ok (intRange s.low (s.midPoint + 1))

/-- The assignment `self.high = self._mid_point()` performed by a successful `yes()`. -/
def HiLo.doYes (s : HiLo) : HiLo := { s with high := s.midPoint }

/-- The assignment `self.low = self._mid_point() + 1` performed by a successful `no()`. -/
def HiLo.doNo (s : HiLo) : HiLo := { s with low := s.midPoint + 1 }

/-- Models `HiLo.yes`: raises if solved (state untouched), else updates `high`. -/
def HiLo.yes (s : HiLo) : HiLo × Option HiLoError :=
  if s.solved then (s, some .alreadySolved) else (s.doYes, none)

/-- Models `HiLo.no`: raises if solved (state untouched), else updates `low`. -/
def HiLo.no (s : HiLo) : HiLo × Option HiLoError :=
  if s.solved then (s, some .alreadySolved) else (s.doNo, none)

/-- Models `HiLo.secret`: raises if not solved, else returns `self.low`. -/
def HiLo.secret (s : HiLo) : Except HiLoError ℤ :=
  if ¬ s.solved then .error .notSolved else .ok s.low

/-- The states reachable from a validated construction by successful `yes`/`no` calls. -/
inductive HiLo.Reachable : HiLo → Prop where
  | mk_init (minimum maximum : ℤ) (s : HiLo) :
      HiLo.init minimum maximum = .ok s → HiLo.Reachable s
  | step_yes (s : HiLo) : HiLo.Reachable s → s.solved = false → HiLo.Reachable s.doYes
  | step_no (s : HiLo) : HiLo.Reachable s → s.solved = false → HiLo.Reachable s.doNo

/-- The driver loop `_play` applied to a fixed list of boolean answers: it checks
`solved()` before each interaction and stops (as the `while` loop does) once solved. -/
def HiLo.runAnswers : List Bool → HiLo → HiLo
  | [], s => s
  | a :: as, s => if s.solved then s else HiLo.runAnswers as (if a then s.doYes else s.doNo)

/-- The driver loop answering truthfully for a hidden target `t`: it answers yes
exactly when `t` lies in the proposed range `choices() = [low, mid_point]`,
i.e. when `t ≤ mid_point` (given `low ≤ t`).  `n` is fuel. -/
def HiLo.runTruthful (t : ℤ) : ℕ → HiLo → HiLo
  | 0, s => s
  | n + 1, s =>
    if s.solved then s
    else HiLo.runTruthful t n (if t ≤ s.midPoint then s.doYes else s.doNo)

/-- The basic state invariant maintained by construction and by `yes`/`no`. -/
def HiLo.Inv (s : HiLo) : Prop :=
  0 ≤ s.low ∧ s.low ≤ s.high ∧ s.high - s.low + 1 ≤ s.size

/-- The width `high - low` of the current range, as a natural number. -/
def HiLo.widthNat (s : HiLo) : ℕ := (s.high - s.low).toNat

/-- The characters Python's `str.isspace()` accepts (CPython's
`Py_UNICODE_ISSPACE`): the ASCII whitespace U+0009..U+000D and U+0020, the
separators U+001C..U+001F, next line U+0085, no-break space U+00A0, and the
Unicode space/line/paragraph separators U+1680, U+2000..U+200A, U+2028,
U+2029, U+202F, U+205F, U+3000.  These are exactly the characters that
`str.strip()` with no argument removes. -/
def pyIsSpace (c : Char) : Bool :=
  (0x09 ≤ c.toNat && c.toNat ≤ 0x0d) || c.toNat == 0x20 ||
  (0x1c ≤ c.toNat && c.toNat ≤ 0x1f) || c.toNat == 0x85 || c.toNat == 0xa0 ||
  c.toNat == 0x1680 || (0x2000 ≤ c.toNat && c.toNat ≤ 0x200a) ||
  c.toNat == 0x2028 || c.toNat == 0x2029 || c.toNat == 0x202f ||
  c.toNat == 0x205f || c.toNat == 0x3000

/-- Python's `line.strip()`: drops whitespace from both ends of the string. -/
def pyStrip (s : String) : String :=
  String.mk (((s.toList.dropWhile pyIsSpace).reverse.dropWhile pyIsSpace).reverse)

/-- The module-level set `_yes = {'y', 'Y', 'yes', 'Yes', 'YES'}`. -/
def yesStrings : List String := ["y", "Y", "yes", "Yes", "YES"]

/-- The module-level set `_no = {'n', 'N', 'no', 'No', 'NO'}`. -/
def noStrings : List String := ["n", "N", "no", "No", "NO"]

/-- Models `_yes_no(line)`: strips the line, then tests membership in `_yes` and `_no`;
`none` is the unrecognized case that makes the driver re-prompt. -/
def yesNo (line : String) : Option Bool :=
  let ans := pyStrip line
  if ans ∈ yesStrings then some true
  else if ans ∈ noStrings then some false
  else none

/-- Models `HiLo.progress`: `1.0 if solved else 1.0 - log(high - low + 1) / log(size)`,
modelled over the real numbers. -/
noncomputable def HiLo.progress (s : HiLo) : ℝ :=
  if s.solved then 1
  else 1 - Real.log ((s.high - s.low + 1 : ℤ) : ℝ) / Real.log ((s.size : ℤ) : ℝ)

/- ### Basic lemmas -/

theorem HiLo.midPoint_eq (s : HiLo) : s.midPoint = (s.low + s.high) / 2 :=
  Int.fdiv_eq_ediv _ (by norm_num)

theorem HiLo.solved_iff (s : HiLo) : s.solved = true ↔ s.low = s.high := by
  simp [HiLo.solved]

theorem HiLo.solved_false_iff (s : HiLo) : s.solved = false ↔ s.low ≠ s.high := by
  simp [HiLo.solved]

theorem mem_intRange (lo stop t : ℤ) : t ∈ intRange lo stop ↔ lo ≤ t ∧ t < stop := by
  simp only [intRange, List.mem_map, List.mem_range]
  constructor
  · rintro ⟨i, hi, rfl⟩
    omega
  · intro h
    exact ⟨(t - lo).toNat, by omega, by omega⟩

theorem HiLo.init_ok_iff (minimum maximum : ℤ) (s : HiLo) :
    HiLo.init minimum maximum = .ok s ↔
      minimum ≤ maximum ∧ 0 ≤ minimum ∧ maximum < 1000000000 ∧
        s = ⟨minimum, maximum, maximum - minimum + 1⟩ := by
  unfold HiLo.init
  split
  · simp; omega
  · split
    · simp; omega
    · split
      · simp; omega
      · simp only [Except.ok.injEq]
        constructor
        · intro h
          exact ⟨by omega, by omega, by omega, h.symm⟩
        · intro h
          exact h.2.2.2.symm

theorem HiLo.inv_init (minimum maximum : ℤ) (s : HiLo)
    (h : HiLo.init minimum maximum = .ok s) : s.Inv := by
  rw [HiLo.init_ok_iff] at h
  obtain ⟨h1, h2, h3, rfl⟩ := h
  exact ⟨h2, h1, le_refl _⟩

theorem HiLo.inv_doYes (s : HiLo) (h : s.Inv) (_hu : s.solved = false) : s.doYes.Inv := by
  obtain ⟨h1, h2, h3⟩ := h
  simp only [HiLo.Inv, HiLo.doYes, HiLo.midPoint_eq]
  omega

theorem HiLo.inv_doNo (s : HiLo) (h : s.Inv) (hu : s.solved = false) : s.doNo.Inv := by
  obtain ⟨h1, h2, h3⟩ := h
  rw [HiLo.solved_false_iff] at hu
  simp only [HiLo.Inv, HiLo.doNo, HiLo.midPoint_eq]
  omega

theorem HiLo.reachable_inv (s : HiLo) (h : s.Reachable) : s.Inv := by
  induction h with
  | mk_init a b s h => exact HiLo.inv_init a b s h
  | step_yes s _ hu ih => exact HiLo.inv_doYes s ih hu
  | step_no s _ hu ih => exact HiLo.inv_doNo s ih hu

/-- A concrete reachable state used by witnesses: the game over `[1, 10]`. -/
theorem HiLo.reachable_1_10 : HiLo.Reachable ⟨1, 10, 10⟩ :=
  HiLo.Reachable.mk_init 1 10 ⟨1, 10, 10⟩ rfl

theorem HiLo.widthNat_doYes (s : HiLo) (h : s.low ≤ s.high) :
    s.doYes.widthNat ≤ s.widthNat / 2 := by
  simp only [HiLo.widthNat, HiLo.doYes, HiLo.midPoint_eq]
  omega

theorem HiLo.widthNat_doNo (s : HiLo) (h : s.low ≤ s.high) :
    s.doNo.widthNat ≤ s.widthNat / 2 := by
  simp only [HiLo.widthNat, HiLo.doNo, HiLo.midPoint_eq]
  omega

theorem HiLo.widthNat_doYes_lt (s : HiLo) (h : s.low ≤ s.high) (hu : s.solved = false) :
    s.doYes.widthNat < s.widthNat := by
  rw [HiLo.solved_false_iff] at hu
  simp only [HiLo.widthNat, HiLo.doYes, HiLo.midPoint_eq]
  omega

theorem HiLo.widthNat_doNo_lt (s : HiLo) (h : s.low ≤ s.high) (hu : s.solved = false) :
    s.doNo.widthNat < s.widthNat := by
  rw [HiLo.solved_false_iff] at hu
  simp only [HiLo.widthNat, HiLo.doNo, HiLo.midPoint_eq]
  omega

theorem HiLo.solved_of_widthNat_zero (s : HiLo) (h : s.low ≤ s.high)
    (hw : s.widthNat = 0) : s.solved = true := by
  rw [HiLo.solved_iff]
  simp only [HiLo.widthNat] at hw
  omega

theorem HiLo.inv_runAnswers (as : List Bool) (s : HiLo) (h : s.Inv) :
    (HiLo.runAnswers as s).Inv := by
  induction as generalizing s with
  | nil => exact h
  | cons a as ih =>
    simp only [HiLo.runAnswers]
    by_cases hs : s.solved = true
    · simp only [hs, if_true]
      exact h
    · rw [Bool.not_eq_true] at hs
      simp only [hs, Bool.false_eq_true, if_false]
      rcases a
      · exact ih _ (s.inv_doNo h hs)
      · exact ih _ (s.inv_doYes h hs)

theorem HiLo.runAnswers_width (as : List Bool) (s : HiLo) (h : s.Inv) :
    (HiLo.runAnswers as s).widthNat ≤ s.widthNat / 2 ^ as.length := by
  induction as generalizing s with
  | nil => simp [HiLo.runAnswers]
  | cons a as ih =>
    simp only [HiLo.runAnswers, List.length_cons]
    by_cases hs : s.solved = true
    · simp only [hs, if_true]
      have : s.widthNat = 0 := by
        rw [HiLo.solved_iff] at hs
        simp only [HiLo.widthNat]
        omega
      simp [this]
    · rw [Bool.not_eq_true] at hs
      simp only [hs, Bool.false_eq_true, if_false]
      have step : (if a then s.doYes else s.doNo).Inv := by
        rcases a
        · exact s.inv_doNo h hs
        · exact s.inv_doYes h hs
      have hw : (if a then s.doYes else s.doNo).widthNat ≤ s.widthNat / 2 := by
        rcases a
        · exact s.widthNat_doNo h.2.1
        · exact s.widthNat_doYes h.2.1
      calc (HiLo.runAnswers as (if a then s.doYes else s.doNo)).widthNat
          ≤ (if a then s.doYes else s.doNo).widthNat / 2 ^ as.length := ih _ step
        _ ≤ s.widthNat / 2 / 2 ^ as.length := Nat.div_le_div_right hw
        _ = s.widthNat / (2 * 2 ^ as.length) := Nat.div_div_eq_div_mul _ _ _
        _ = s.widthNat / 2 ^ (as.length + 1) := by rw [pow_succ, Nat.mul_comm]

theorem yesStrings_noStrings_disjoint (a : String) :
    a ∈ yesStrings → a ∈ noStrings → False := by
  intro h1 h2
  simp only [yesStrings, List.mem_cons, List.not_mem_nil, or_false] at h1
  rcases h1 with rfl | rfl | rfl | rfl | rfl <;> revert h2 <;> decide

/- ### Claim theorems -/

/-- C5: `choices`, `yes`, `no` raise `AlreadySolvedError` (and only it) iff the
tracker is solved; `secret` raises `NotSolvedError` (and only it) iff the tracker
is unsolved; in every error case of `yes`/`no` the returned state is the untouched
receiver. -/
theorem hilo_error_conditions (s : HiLo) :
    (∀ e, s.choices = .error e ↔ (s.solved = true ∧ e = .alreadySolved)) ∧
    (∀ e, (s.yes).2 = some e ↔ (s.solved = true ∧ e = .alreadySolved)) ∧
    (∀ e, (s.no).2 = some e ↔ (s.solved = true ∧ e = .alreadySolved)) ∧
    (∀ e, s.secret = .error e ↔ (s.solved = false ∧ e = .notSolved)) ∧
    (s.solved = true → (s.yes).1 = s ∧ (s.no).1 = s) := by
  unfold HiLo.choices HiLo.yes HiLo.no HiLo.secret
  rcases hs : s.solved <;> simp [hs] <;> intro e <;>
    exact ⟨fun h => h.symm, fun h => h.symm⟩

/-- C6: construction succeeds exactly when `minimum ≤ maximum`, `0 ≤ minimum`
and `maximum < 1000000000`; otherwise it fails with one of the invalid-range
errors; on success the tracker is solved iff `minimum = maximum`. -/
theorem hilo_construction (minimum maximum : ℤ) :
    ((∃ s, HiLo.init minimum maximum = .ok s) ↔
       (minimum ≤ maximum ∧ 0 ≤ minimum ∧ maximum < 1000000000)) ∧
    (∀ s, HiLo.init minimum maximum = .ok s → (s.solved = true ↔ minimum = maximum)) ∧
    ((∃ e, HiLo.init minimum maximum = .error e ∧ e.isInvalidRange = true) ↔
       ¬ (minimum ≤ maximum ∧ 0 ≤ minimum ∧ maximum < 1000000000)) := by
  refine ⟨?_, ?_, ?_⟩
  · constructor
    · rintro ⟨s, hs⟩
      rw [HiLo.init_ok_iff] at hs
      exact ⟨hs.1, hs.2.1, hs.2.2.1⟩
    · rintro ⟨h1, h2, h3⟩
      exact ⟨_, (HiLo.init_ok_iff _ _ _).mpr ⟨h1, h2, h3, rfl⟩⟩
  · intro s hs
    rw [HiLo.init_ok_iff] at hs
    obtain ⟨_, _, _, rfl⟩ := hs
    simp [HiLo.solved_iff]
  · unfold HiLo.init
    split_ifs with h1 h2 h3 <;> simp [HiLoError.isInvalidRange] <;> omega

/-- C7: on every reachable unsolved state, `choices` returns the inclusive
integer range `[low, midPoint]`, which is non-empty, and
`low ≤ midPoint ≤ high`. -/
theorem hilo_choices_spec (s : HiLo) (hr : s.Reachable) (h : s.solved = false) :
    ∃ l, s.choices = .ok l ∧ l ≠ [] ∧
      (∀ t, t ∈ l ↔ s.low ≤ t ∧ t ≤ s.midPoint) ∧
      s.low ≤ s.midPoint ∧ s.midPoint ≤ s.high := by
  obtain ⟨h0, h1, h2⟩ := s.reachable_inv hr
  have hne : s.low ≠ s.high := (HiLo.solved_false_iff s).mp h
  have hmid : s.low ≤ s.midPoint ∧ s.midPoint ≤ s.high := by
    rw [HiLo.midPoint_eq]; omega
  refine ⟨intRange s.low (s.midPoint + 1), ?_, ?_, ?_, hmid.1, hmid.2⟩
  · simp [HiLo.choices, h]
  · exact List.ne_nil_of_mem ((mem_intRange _ _ s.low).mpr ⟨le_refl _, by omega⟩)
  · intro t
    rw [mem_intRange]
    omega

/-- C7 witness: the initial `[1, 10]` state is reachable and unsolved, and the
theorem applies to it. -/
theorem hilo_choices_spec_witness :
    ∃ l, HiLo.choices ⟨1, 10, 10⟩ = .ok l ∧ l ≠ [] ∧
      (∀ t, t ∈ l ↔ (1 : ℤ) ≤ t ∧ t ≤ HiLo.midPoint ⟨1, 10, 10⟩) ∧
      (1 : ℤ) ≤ HiLo.midPoint ⟨1, 10, 10⟩ ∧ HiLo.midPoint ⟨1, 10, 10⟩ ≤ 10 :=
  hilo_choices_spec ⟨1, 10, 10⟩ HiLo.reachable_1_10 (by decide)

/-- C8 counterexample: the casing variants "yEs", "YeS" and "nO", which the claim
says are accepted, are in fact unrecognized by `_yes_no`. -/
theorem yesNo_not_case_insensitive :
    yesNo "yEs" ≠ some true ∧ yesNo "YeS" ≠ some true ∧ yesNo "nO" ≠ some false ∧
    yesNo "yEs" = none ∧ yesNo "YeS" = none ∧ yesNo "nO" = none := by
  refine ⟨?_, ?_, ?_, rfl, rfl, rfl⟩ <;> decide

/-- C8 amended: `_yes_no` maps a line to yes exactly when its stripped form is one
of the five literals `y`, `Y`, `yes`, `Yes`, `YES`, to no exactly when it is one of
`n`, `N`, `no`, `No`, `NO`, and to unrecognized otherwise. -/
theorem yesNo_spec (line : String) :
    (yesNo line = some true ↔ pyStrip line ∈ yesStrings) ∧
    (yesNo line = some false ↔ pyStrip line ∈ noStrings) ∧
    (yesNo line = none ↔ (pyStrip line ∉ yesStrings ∧ pyStrip line ∉ noStrings)) := by
  simp only [yesNo]
  split_ifs with h1 h2 <;>
    simp_all <;>
    exact fun h2 => yesStrings_noStrings_disjoint _ h1 h2

/-- C8 amended witness: concrete evaluations, including that stripping and the
literal casings behave as stated on " yes " and "NO". -/
theorem yesNo_spec_witness :
    (yesNo " yes " = some true ↔ pyStrip " yes " ∈ yesStrings) ∧
    (yesNo " yes " = some false ↔ pyStrip " yes " ∈ noStrings) ∧
    (yesNo " yes " = none ↔ (pyStrip " yes " ∉ yesStrings ∧ pyStrip " yes " ∉ noStrings)) :=
  yesNo_spec " yes "

theorem HiLo.runTruthful_correct (t : ℤ) (n : ℕ) (s : HiLo)
    (hInv : s.Inv) (hlo : s.low ≤ t) (hhi : t ≤ s.high) (hn : s.widthNat ≤ n) :
    (HiLo.runTruthful t n s).solved = true ∧ (HiLo.runTruthful t n s).low = t := by
  induction n generalizing s with
  | zero =>
    simp only [HiLo.runTruthful]
    have : s.low = s.high := by
      simp only [HiLo.widthNat] at hn
      omega
    exact ⟨(HiLo.solved_iff s).mpr this, by omega⟩
  | succ n ih =>
    simp only [HiLo.runTruthful]
    by_cases hs : s.solved = true
    · rw [if_pos hs]
      have := (HiLo.solved_iff s).mp hs
      exact ⟨hs, by omega⟩
    · rw [Bool.not_eq_true] at hs
      simp only [hs, Bool.false_eq_true, if_false]
      have hne : s.low ≠ s.high := (HiLo.solved_false_iff s).mp hs
      have hmid : s.low ≤ s.midPoint ∧ s.midPoint < s.high := by
        rw [HiLo.midPoint_eq]
        obtain ⟨_, _, _⟩ := hInv
        omega
      by_cases ht : t ≤ s.midPoint
      · simp only [ht, if_true]
        refine ih s.doYes (s.inv_doYes hInv hs) hlo ht ?_
        have := s.widthNat_doYes_lt hInv.2.1 hs
        omega
      · simp only [ht, if_false]
        refine ih s.doNo (s.inv_doNo hInv hs) (by simp only [HiLo.doNo]; omega)
          (by simp only [HiLo.doNo]; exact hhi) ?_
        have := s.widthNat_doNo_lt hInv.2.1 hs
        omega

/-- C1: answering truthfully for any target `t` inside a validly constructed
range drives the tracker to a solved state whose `secret` is exactly `t`. -/
theorem hilo_truthful_correct (minimum maximum t : ℤ) (s : HiLo)
    (hinit : HiLo.init minimum maximum = .ok s)
    (h1 : minimum ≤ t) (h2 : t ≤ maximum) :
    ∃ n, (HiLo.runTruthful t n s).solved = true ∧
      (HiLo.runTruthful t n s).secret = .ok t := by
  have hInv := HiLo.inv_init minimum maximum s hinit
  rw [HiLo.init_ok_iff] at hinit
  obtain ⟨_, _, _, rfl⟩ := hinit
  obtain ⟨hsolved, hlow⟩ :=
    HiLo.runTruthful_correct t _ _ hInv h1 h2 (le_refl _)
  refine ⟨_, hsolved, ?_⟩
  unfold HiLo.secret
  rw [hsolved]
  simp [hlow]

/-- C1 witness: target 7 in the range `[1, 10]`. -/
theorem hilo_truthful_correct_witness :
    ∃ n, (HiLo.runTruthful 7 n ⟨1, 10, 10⟩).solved = true ∧
      (HiLo.runTruthful 7 n ⟨1, 10, 10⟩).secret = .ok 7 :=
  hilo_truthful_correct 1 10 7 ⟨1, 10, 10⟩ rfl (by decide) (by decide)

/-- C2: from a validly constructed range of size `N`, any sequence of at least
`⌈log₂ N⌉` answers (each applied through the solved-checking driver loop) leaves
the tracker solved; moreover each successful call strictly shrinks the range. -/
theorem hilo_termination (minimum maximum : ℤ) (s : HiLo) (as : List Bool)
    (hinit : HiLo.init minimum maximum = .ok s)
    (hlen : Nat.clog 2 s.size.toNat ≤ as.length) :
    (HiLo.runAnswers as s).solved = true ∧
    (∀ u : HiLo, u.Inv → u.solved = false →
      u.doYes.widthNat < u.widthNat ∧ u.doNo.widthNat < u.widthNat) := by
  constructor
  · have hInv := HiLo.inv_init minimum maximum s hinit
    have hbound := HiLo.runAnswers_width as s hInv
    have hN : s.size.toNat ≤ 2 ^ as.length :=
      le_trans (Nat.le_pow_clog (by norm_num) _) (Nat.pow_le_pow_right (by norm_num) hlen)
    rw [HiLo.init_ok_iff] at hinit
    obtain ⟨hab, _, _, rfl⟩ := hinit
    have hw : HiLo.widthNat ⟨minimum, maximum, maximum - minimum + 1⟩ <
        2 ^ as.length := by
      simp only [HiLo.widthNat] at hbound ⊢
      simp only [HiLo.widthNat] at hN ⊢
      omega
    rw [Nat.div_eq_of_lt hw] at hbound
    have hrun := HiLo.inv_runAnswers as _ hInv
    exact HiLo.solved_of_widthNat_zero _ hrun.2.1 (Nat.le_zero.mp hbound)
  · intro u hu hsu
    exact ⟨u.widthNat_doYes_lt hu.2.1 hsu, u.widthNat_doNo_lt hu.2.1 hsu⟩

/-- C2 witness: the range `[1, 10]` with `⌈log₂ 10⌉` yes answers. -/
theorem hilo_termination_witness :
    (HiLo.runAnswers
        (List.replicate (Nat.clog 2 (HiLo.size ⟨1, 10, 10⟩).toNat) true)
        ⟨1, 10, 10⟩).solved = true ∧
    (∀ u : HiLo, u.Inv → u.solved = false →
      u.doYes.widthNat < u.widthNat ∧ u.doNo.widthNat < u.widthNat) :=
  hilo_termination 1 10 ⟨1, 10, 10⟩ _ rfl (by rw [List.length_replicate])

/-- C3: every reachable state satisfies `low ≤ high`; the invariant holds at
construction and is preserved by successful `yes` (which sets `high` to the
midpoint) and `no` (which sets `low` to midpoint + 1); a state is solved exactly
when `low = high`. -/
theorem hilo_invariant (s : HiLo) (hr : s.Reachable) :
    s.low ≤ s.high ∧ (s.solved = true ↔ s.low = s.high) ∧
    (s.solved = false →
      s.doYes.high = s.midPoint ∧ s.doNo.low = s.midPoint + 1 ∧
      s.doYes.low ≤ s.doYes.high ∧ s.doNo.low ≤ s.doNo.high) := by
  obtain ⟨h0, h1, h2⟩ := s.reachable_inv hr
  refine ⟨h1, HiLo.solved_iff s, fun hu => ⟨rfl, rfl, ?_, ?_⟩⟩
  · exact (s.inv_doYes ⟨h0, h1, h2⟩ hu).2.1
  · exact (s.inv_doNo ⟨h0, h1, h2⟩ hu).2.1

/-- C3 witness: the invariant at the reachable state `[1, 10]`. -/
theorem hilo_invariant_witness :
    HiLo.low ⟨1, 10, 10⟩ ≤ HiLo.high ⟨1, 10, 10⟩ ∧
    (HiLo.solved ⟨1, 10, 10⟩ = true ↔ HiLo.low ⟨1, 10, 10⟩ = HiLo.high ⟨1, 10, 10⟩) ∧
    (HiLo.solved ⟨1, 10, 10⟩ = false →
      (HiLo.doYes ⟨1, 10, 10⟩).high = HiLo.midPoint ⟨1, 10, 10⟩ ∧
      (HiLo.doNo ⟨1, 10, 10⟩).low = HiLo.midPoint ⟨1, 10, 10⟩ + 1 ∧
      (HiLo.doYes ⟨1, 10, 10⟩).low ≤ (HiLo.doYes ⟨1, 10, 10⟩).high ∧
      (HiLo.doNo ⟨1, 10, 10⟩).low ≤ (HiLo.doNo ⟨1, 10, 10⟩).high) :=
  hilo_invariant ⟨1, 10, 10⟩ HiLo.reachable_1_10

/-- C10: in every reachable state the current range never exceeds the immutable
initial `size`; `yes`/`no` never modify `size`; each successful call strictly
shrinks `high - low`; and when unsolved the proposed range `[low, midPoint]` is a
proper sub-interval of `[low, high]`. -/
theorem hilo_range_bounded (s : HiLo) (hr : s.Reachable) :
    s.high - s.low + 1 ≤ s.size ∧
    (s.solved = false →
      s.doYes.size = s.size ∧ s.doNo.size = s.size ∧
      s.doYes.high - s.doYes.low < s.high - s.low ∧
      s.doNo.high - s.doNo.low < s.high - s.low ∧
      s.low ≤ s.midPoint ∧ s.midPoint < s.high) := by
  obtain ⟨h0, h1, h2⟩ := s.reachable_inv hr
  refine ⟨h2, fun hu => ⟨rfl, rfl, ?_, ?_, ?_, ?_⟩⟩ <;>
    rw [HiLo.solved_false_iff] at hu <;>
    simp only [HiLo.doYes, HiLo.doNo, HiLo.midPoint_eq] <;>
    omega

theorem HiLo.size_two_le (s : HiLo) (hInv : s.Inv) (hu : s.solved = false) :
    2 ≤ s.size := by
  rw [HiLo.solved_false_iff] at hu
  obtain ⟨h0, h1, h2⟩ := hInv
  omega

theorem HiLo.log_size_pos (s : HiLo) (hInv : s.Inv) (hu : s.solved = false) :
    0 < Real.log ((s.size : ℤ) : ℝ) := by
  apply Real.log_pos
  have h2 := s.size_two_le hInv hu
  exact_mod_cast (by omega : (1 : ℤ) < s.size)

theorem HiLo.progress_solved (s : HiLo) (hs : s.solved = true) : s.progress = 1 := by
  simp [HiLo.progress, hs]

theorem HiLo.progress_unsolved (s : HiLo) (hu : s.solved = false) :
    s.progress =
      1 - Real.log ((s.high - s.low + 1 : ℤ) : ℝ) / Real.log ((s.size : ℤ) : ℝ) := by
  simp [HiLo.progress, hu]

theorem HiLo.progress_bounds (s : HiLo) (hInv : s.Inv) :
    0 ≤ s.progress ∧ s.progress ≤ 1 := by
  by_cases hs : s.solved = true
  · rw [s.progress_solved hs]
    norm_num
  · rw [Bool.not_eq_true] at hs
    rw [s.progress_unsolved hs]
    have hlogsize := s.log_size_pos hInv hs
    have hne := (HiLo.solved_false_iff s).mp hs
    obtain ⟨h0, h1, h2⟩ := hInv
    have hw2 : (2 : ℝ) ≤ ((s.high - s.low + 1 : ℤ) : ℝ) :=
      by exact_mod_cast (by omega : (2 : ℤ) ≤ s.high - s.low + 1)
    have hws : ((s.high - s.low + 1 : ℤ) : ℝ) ≤ ((s.size : ℤ) : ℝ) := by exact_mod_cast h2
    have hlogw : 0 ≤ Real.log ((s.high - s.low + 1 : ℤ) : ℝ) :=
      Real.log_nonneg (by linarith)
    have hlogle : Real.log ((s.high - s.low + 1 : ℤ) : ℝ) ≤ Real.log ((s.size : ℤ) : ℝ) :=
      Real.log_le_log (by linarith) hws
    constructor
    · have hle1 : Real.log ((s.high - s.low + 1 : ℤ) : ℝ) / Real.log ((s.size : ℤ) : ℝ) ≤ 1 :=
        (div_le_one hlogsize).mpr hlogle
      linarith
    · have hge0 : 0 ≤ Real.log ((s.high - s.low + 1 : ℤ) : ℝ) / Real.log ((s.size : ℤ) : ℝ) :=
        div_nonneg hlogw (le_of_lt hlogsize)
      linarith

theorem HiLo.progress_step_le (s u : HiLo) (hInv : s.Inv) (hu : s.solved = false)
    (hsize : u.size = s.size) (hul : u.low ≤ u.high)
    (hw : u.high - u.low ≤ s.high - s.low) :
    s.progress ≤ u.progress := by
  by_cases hus : u.solved = true
  · rw [u.progress_solved hus]
    exact (s.progress_bounds hInv).2
  · rw [Bool.not_eq_true] at hus
    rw [s.progress_unsolved hu, u.progress_unsolved hus, hsize]
    have hlogsize := s.log_size_pos hInv hu
    have h1 : (1 : ℝ) ≤ ((u.high - u.low + 1 : ℤ) : ℝ) :=
      by exact_mod_cast (by omega : (1 : ℤ) ≤ u.high - u.low + 1)
    have hle : ((u.high - u.low + 1 : ℤ) : ℝ) ≤ ((s.high - s.low + 1 : ℤ) : ℝ) :=
      by exact_mod_cast (by omega : (u.high - u.low + 1 : ℤ) ≤ s.high - s.low + 1)
    have hlogle := Real.log_le_log (by linarith) hle
    have hdiv := (div_le_div_iff_of_pos_right hlogsize).mpr hlogle
    linarith

/-- C10 witness: the bound at the reachable state `[1, 10]`. -/
theorem hilo_range_bounded_witness :
    HiLo.high ⟨1, 10, 10⟩ - HiLo.low ⟨1, 10, 10⟩ + 1 ≤ HiLo.size ⟨1, 10, 10⟩ ∧
    (HiLo.solved ⟨1, 10, 10⟩ = false →
      (HiLo.doYes ⟨1, 10, 10⟩).size = HiLo.size ⟨1, 10, 10⟩ ∧
      (HiLo.doNo ⟨1, 10, 10⟩).size = HiLo.size ⟨1, 10, 10⟩ ∧
      (HiLo.doYes ⟨1, 10, 10⟩).high - (HiLo.doYes ⟨1, 10, 10⟩).low <
        HiLo.high ⟨1, 10, 10⟩ - HiLo.low ⟨1, 10, 10⟩ ∧
      (HiLo.doNo ⟨1, 10, 10⟩).high - (HiLo.doNo ⟨1, 10, 10⟩).low <
        HiLo.high ⟨1, 10, 10⟩ - HiLo.low ⟨1, 10, 10⟩ ∧
      HiLo.low ⟨1, 10, 10⟩ ≤ HiLo.midPoint ⟨1, 10, 10⟩ ∧
      HiLo.midPoint ⟨1, 10, 10⟩ < HiLo.high ⟨1, 10, 10⟩) :=
  hilo_range_bounded ⟨1, 10, 10⟩ HiLo.reachable_1_10

/-- C4: `progress` equals 1 exactly on solved states, equals 0 on an unsolved
freshly constructed state, always lies in `[0, 1]` on reachable states, and is
non-decreasing across every successful `yes`/`no` call. -/
theorem hilo_progress_contract (s : HiLo) (hr : s.Reachable) :
    (s.solved = true → s.progress = 1) ∧
    (0 ≤ s.progress ∧ s.progress ≤ 1) ∧
    ((∃ minimum maximum, HiLo.init minimum maximum = .ok s) → s.solved = false →
      s.progress = 0) ∧
    (s.solved = false → s.progress ≤ s.doYes.progress ∧ s.progress ≤ s.doNo.progress) := by
  have hInv := s.reachable_inv hr
  refine ⟨s.progress_solved, s.progress_bounds hInv, ?_, ?_⟩
  · rintro ⟨a, b, hab⟩ hu
    rw [HiLo.init_ok_iff] at hab
    obtain ⟨hab1, hab2, hab3, rfl⟩ := hab
    rw [HiLo.progress_unsolved _ hu]
    have hne := (HiLo.solved_false_iff _).mp hu
    simp only at hne ⊢
    rw [div_self, sub_self]
    apply ne_of_gt
    apply Real.log_pos
    exact_mod_cast (by omega : (1 : ℤ) < b - a + 1)
  · intro hu
    have hyes := s.inv_doYes hInv hu
    have hno := s.inv_doNo hInv hu
    have hne := (HiLo.solved_false_iff s).mp hu
    obtain ⟨h0, h1, h2⟩ := hInv
    constructor
    · refine s.progress_step_le s.doYes ⟨h0, h1, h2⟩ hu rfl hyes.2.1 ?_
      simp only [HiLo.doYes, HiLo.midPoint_eq]
      omega
    · refine s.progress_step_le s.doNo ⟨h0, h1, h2⟩ hu rfl hno.2.1 ?_
      simp only [HiLo.doNo, HiLo.midPoint_eq]
      omega

/-- C4 witness: the progress contract at the reachable state `[1, 10]`. -/
theorem hilo_progress_contract_witness :
    (HiLo.solved ⟨1, 10, 10⟩ = true → HiLo.progress ⟨1, 10, 10⟩ = 1) ∧
    (0 ≤ HiLo.progress ⟨1, 10, 10⟩ ∧ HiLo.progress ⟨1, 10, 10⟩ ≤ 1) ∧
    ((∃ minimum maximum, HiLo.init minimum maximum = .ok ⟨1, 10, 10⟩) →
      HiLo.solved ⟨1, 10, 10⟩ = false → HiLo.progress ⟨1, 10, 10⟩ = 0) ∧
    (HiLo.solved ⟨1, 10, 10⟩ = false →
      HiLo.progress ⟨1, 10, 10⟩ ≤ (HiLo.doYes ⟨1, 10, 10⟩).progress ∧
      HiLo.progress ⟨1, 10, 10⟩ ≤ (HiLo.doNo ⟨1, 10, 10⟩).progress) :=
  hilo_progress_contract ⟨1, 10, 10⟩ HiLo.reachable_1_10

/-- C9: on every reachable unsolved state the range width is at least 1, the
initial size is at least 2, and `log size` is strictly positive — so the
`progress` formula never divides by zero and its logarithm arguments are ≥ 1. -/
theorem hilo_progress_safe (s : HiLo) (hr : s.Reachable) (hu : s.solved = false) :
    2 ≤ s.size ∧ 1 ≤ s.high - s.low + 1 ∧
    (1 : ℝ) ≤ ((s.high - s.low + 1 : ℤ) : ℝ) ∧
    0 < Real.log ((s.size : ℤ) : ℝ) ∧
    Real.log ((s.size : ℤ) : ℝ) ≠ 0 := by
  have hInv := s.reachable_inv hr
  have h2 := s.size_two_le hInv hu
  have hlog := s.log_size_pos hInv hu
  obtain ⟨i0, i1, i2⟩ := hInv
  refine ⟨h2, by omega, ?_, hlog, ne_of_gt hlog⟩
  exact_mod_cast (by omega : (1 : ℤ) ≤ s.high - s.low + 1)

/-- C9 witness: the safety facts at the reachable unsolved state `[1, 10]`. -/
theorem hilo_progress_safe_witness :
    2 ≤ HiLo.size ⟨1, 10, 10⟩ ∧
    1 ≤ HiLo.high ⟨1, 10, 10⟩ - HiLo.low ⟨1, 10, 10⟩ + 1 ∧
    (1 : ℝ) ≤ ((HiLo.high ⟨1, 10, 10⟩ - HiLo.low ⟨1, 10, 10⟩ + 1 : ℤ) : ℝ) ∧
    0 < Real.log ((HiLo.size ⟨1, 10, 10⟩ : ℤ) : ℝ) ∧
    Real.log ((HiLo.size ⟨1, 10, 10⟩ : ℤ) : ℝ) ≠ 0 :=
  hilo_progress_safe ⟨1, 10, 10⟩ HiLo.reachable_1_10 (by decide)

/-- C5 witness: the error conditions evaluated at the solved state `[5, 5]`. -/
theorem hilo_error_conditions_witness :
    (∀ e, HiLo.choices ⟨5, 5, 1⟩ = .error e ↔
      (HiLo.solved ⟨5, 5, 1⟩ = true ∧ e = .alreadySolved)) ∧
    (∀ e, (HiLo.yes ⟨5, 5, 1⟩).2 = some e ↔
      (HiLo.solved ⟨5, 5, 1⟩ = true ∧ e = .alreadySolved)) ∧
    (∀ e, (HiLo.no ⟨5, 5, 1⟩).2 = some e ↔
      (HiLo.solved ⟨5, 5, 1⟩ = true ∧ e = .alreadySolved)) ∧
    (∀ e, HiLo.secret ⟨5, 5, 1⟩ = .error e ↔
      (HiLo.solved ⟨5, 5, 1⟩ = false ∧ e = .notSolved)) ∧
    (HiLo.solved ⟨5, 5, 1⟩ = true →
      (HiLo.yes ⟨5, 5, 1⟩).1 = ⟨5, 5, 1⟩ ∧ (HiLo.no ⟨5, 5, 1⟩).1 = ⟨5, 5, 1⟩) :=
  hilo_error_conditions ⟨5, 5, 1⟩

/-- C6 witness: construction evaluated at the bounds `(3, 7)`. -/
theorem hilo_construction_witness :
    ((∃ s, HiLo.init 3 7 = .ok s) ↔ ((3 : ℤ) ≤ 7 ∧ (0 : ℤ) ≤ 3 ∧ (7 : ℤ) < 1000000000)) ∧
    (∀ s, HiLo.init 3 7 = .ok s → (s.solved = true ↔ (3 : ℤ) = 7)) ∧
    ((∃ e, HiLo.init 3 7 = .error e ∧ e.isInvalidRange = true) ↔
      ¬ ((3 : ℤ) ≤ 7 ∧ (0 : ℤ) ≤ 3 ∧ (7 : ℤ) < 1000000000)) :=
  hilo_construction 3 7
